import Mathlib

/-!
Shallow embedding of the `pytypos` package (file `src/pytypos/_pytypos.py`),
verified against its natural-language specification.

Modelling conventions:
* Python strings are Lean `String`s; the low-level scanning routines work on
  `List Char` (a `String`'s `data`) so that everything is structural and
  computable by `rfl`/`decide`.
* Python sets are modelled as `List`s used only through membership;
  `set(...)`-deduplication is modelled by a first-occurrence-preserving
  `dedupF` (Python's set iteration order is unspecified, the spec itself
  flags this nondeterminism; the model fixes first-seen order).
* The filesystem is an explicit structure `FS`; the enchant dictionary is the
  black-box structure `Dict` (per the spec, only `check`, `suggest`, `remove`,
  `add` behaviour matters; enchant's `Dict.remove w` makes `check w` return
  `false` afterwards).
* Machine-level details (UTF-8 decoding, `os.path.sep`, which is `'/'` on the
  modelled POSIX host so that `.replace(os.path.sep, '/')` is the identity)
  are modelled as identities.
* The regular expression built in `__init__` is always
  `match_identifier + "(.+)\n"`.  The model interprets the interpolated
  marker over the regex subset in which every character is a literal except
  `'.'`, which matches any character other than a newline - exactly Python's
  semantics for markers made of ordinary characters and dots (the markers the
  specification and its examples use).  `(.+)\n` is matched greedily as in
  Python: at least one non-newline character followed by a newline.
-/

namespace Pytypos

/-! ## Basic character-list utilities -/

/-- The fixed punctuation set stripped from both ends of every token
(`strip_chars` in `_match_from_file`). -/
def stripChars : List Char :=
  ['.', ',', ';', '?', '(', ')', '&', '"', '\'', '{', '}', '@', '[', ']', '#']

/-- Python `str.strip(strip_str)` on a character list: drop characters that
belong to `stripChars` from both ends. -/
def stripPunct (s : List Char) : List Char :=
  ((s.dropWhile (fun c => stripChars.contains c)).reverse.dropWhile
    (fun c => stripChars.contains c)).reverse

/-- Python `str.isalpha` (restricted to the ASCII letters the claims use):
nonempty and every character alphabetic. -/
def isAlphaTok (s : List Char) : Bool :=
  !s.isEmpty && s.all Char.isAlpha

/-- Python `str.split()` with no argument: split on runs of whitespace,
discarding empty pieces.  `cur` accumulates the current token reversed. -/
def splitWSAux (cur : List Char) : List Char → List (List Char)
  | [] => if cur.isEmpty then [] else [cur.reverse]
  | c :: cs =>
    if c.isWhitespace then
      if cur.isEmpty then splitWSAux [] cs else cur.reverse :: splitWSAux [] cs
    else
      splitWSAux (c :: cur) cs

def splitWS (s : List Char) : List (List Char) := splitWSAux [] s

/-- Split a character list on newline characters; always returns a nonempty
list whose last element is the trailing (possibly empty) unterminated
segment. -/
def splitNl : List Char → List (List Char)
  | [] => [[]]
  | c :: cs =>
    if c = '\n' then [] :: splitNl cs
    else
      match splitNl cs with
      | [] => [[c]]
      | l :: ls => (c :: l) :: ls

/-- First-occurrence-preserving deduplication, the model of Python's
`list(set(...))` (set order determinized to first-seen order). -/
def dedupAcc (seen : List String) : List String → List String
  | [] => []
  | x :: xs => if seen.contains x then dedupAcc seen xs
               else x :: dedupAcc (x :: seen) xs

def dedupF (l : List String) : List String := dedupAcc [] l

/-- Python `str.casefold`, restricted to ASCII: lower-casing, character by
character. -/
def casefold (s : String) : List Char := s.data.map Char.toLower

/-- Strict lexicographic comparison of character lists by code point -
how Python compares the casefolded keys. -/
def lexLt : List Char → List Char → Bool
  | [], [] => false
  | [], _ :: _ => true
  | _ :: _, [] => false
  | a :: as, b :: bs => if a = b then lexLt as bs else a < b

/-- Stable insertion of a string into a list sorted by `casefold` key:
the new element goes after existing elements with an equal key. -/
def insertCF (x : String) : List String → List String
  | [] => [x]
  | y :: ys => if lexLt (casefold x) (casefold y) then x :: y :: ys else y :: insertCF x ys

/-- Python `sorted(-, key=str.casefold)`: a stable sort by the casefolded
key (insertion sort, which is stable). -/
def sortCF (l : List String) : List String := l.foldl (fun acc x => insertCF x acc) []

/-! ## The regex subset used by `_match_from_file`

`re_match = f'{match_identifier}(.+)\n'` (line 58 of `_pytypos.py`).  A marker
character is a literal, except `'.'` which is the any-non-newline
metacharacter. -/

inductive MChar where
  | lit (c : Char)
  | anyc
deriving DecidableEq

/-- Does one marker character-matcher accept a character?  Python's `.`
(without DOTALL) matches everything except a newline. -/
def mcharMatch : MChar → Char → Bool
  | .lit c, d => c == d
  | .anyc, d => d != '\n'

/-- The marker string interpolated (unescaped) into the pattern, read with
regex semantics over the literal-and-dot subset. -/
def parseMarker (m : String) : List MChar :=
  m.data.map (fun c => if c = '.' then MChar.anyc else MChar.lit c)

/-- Try to match the marker at the head of `s`; on success return the
remaining characters.  Marker matchers are single fixed-width character
classes, so matching is deterministic. -/
def markerMatch : List MChar → List Char → Option (List Char)
  | [], s => some s
  | _ :: _, [] => none
  | m :: ms, c :: cs => if mcharMatch m c then markerMatch ms cs else none

/-- Match `(.+)\n` greedily at the head of `s`: at least one non-newline
character, then a newline.  Returns the capture and the rest after the
newline. -/
def captureLine (s : List Char) : Option (List Char × List Char) :=
  let cap := s.takeWhile (fun c => c != '\n')
  match s.dropWhile (fun c => c != '\n') with
  | c :: rest => if cap.isEmpty then none else if c = '\n' then some (cap, rest) else none
  | [] => none

/-- `re.findall(marker ++ "(.+)\n", s)`: scan left to right; at each position
try the whole pattern; on success emit the group-1 capture and resume after
the matched region (after the newline).  `fuel` makes the recursion
structural; `fuel = s.length` is always enough because every step consumes at
least one character. -/
def findallAux (ms : List MChar) : Nat → List Char → List (List Char)
  | 0, _ => []
  | _ + 1, [] => []
  | fuel + 1, c :: cs =>
    match markerMatch ms (c :: cs) with
    | some afterM =>
      match captureLine afterM with
      | some (cap, rest) => cap :: findallAux ms fuel rest
      | none => findallAux ms fuel cs
    | none => findallAux ms fuel cs

def reFindall (marker : String) (content : String) : List (List Char) :=
  findallAux (parseMarker marker) content.data.length content.data

/-- `Pytypos._match_from_file`, lines 124-131, applied to the file's content:
for each regex match, split on whitespace, strip the punctuation set from
both ends, keep the stripped token when it is nonempty and entirely
alphabetic, and deduplicate (`list(set(...))`). -/
def matchWords (marker : String) (content : String) : List String :=
  dedupF (((reFindall marker content).flatMap
    (fun m => (splitWS m).filterMap
      (fun w => if isAlphaTok (stripPunct w) then some (String.mk (stripPunct w)) else none))))

/-! ## Errors -/

/-- The exceptions the modelled code can raise: `FileNotFoundError`,
`SuggestionsNotFound` (from `exceptions.py`), and the `IndexError` /
`AttributeError` that CPython raises for `suggestions[0]` on an empty list
and `entry.items()` on a `str`. -/
inductive Err where
  | fileNotFound
  | suggestionsNotFound
  | indexError
  | attributeError
deriving DecidableEq

/-! ## The external collaborators: dictionary and filesystem -/

/-- The enchant dictionary handle, a black box per the spec.  `removed`
records words passed to enchant's `Dict.remove`, which adds the word to the
personal exclusion list so that `check` returns `false` for it afterwards.
`suggestFn` is the service's opaque suggestion ranking. -/
structure Dict where
  known : List String
  removed : List String
  suggestFn : String → List String

/-- `enchant.Dict.check(word)`. -/
def Dict.check (d : Dict) (w : String) : Bool :=
  d.known.contains w && !d.removed.contains w

/-- `enchant.Dict.suggest(word)`. -/
def Dict.suggest (d : Dict) (w : String) : List String := d.suggestFn w

/-- `enchant.Dict.remove(word)`: afterwards `check word = false`. -/
def Dict.remove (d : Dict) (w : String) : Dict :=
  { known := d.known, removed := d.removed ++ [w], suggestFn := d.suggestFn }

/-- The filesystem: an association list of regular files (path, content),
a list of directory paths, and the opaque result of `glob.glob` for a
directory target (pattern directory, recursive flag, extension). -/
structure FS where
  files : List (String × String)
  dirs : List String
  globFn : String → Bool → String → List String

/-- `os.path.isfile`. -/
def FS.isFile (fs : FS) (p : String) : Bool := (fs.files.map Prod.fst).contains p

/-- `os.path.isdir`. -/
def FS.isDir (fs : FS) (p : String) : Bool := fs.dirs.contains p

/-- Read a file's content (callers only read paths that exist). -/
def FS.read (fs : FS) (p : String) : String := (List.lookup p fs.files).getD ""

/-- Overwrite the content stored for path `p`. -/
def FS.write (fs : FS) (p : String) (content : String) : FS :=
  { files := fs.files.map (fun q => if q.1 = p then (q.1, content) else q),
    dirs := fs.dirs, globFn := fs.globFn }

/-! ## The session state (the `Pytypos` object) -/

/-- One entry of `typo_details[file]`: the bare word when suggestions are
disabled, or the single-key dict `{word: suggestions}` when enabled. -/
inductive Entry where
  | bare (word : String)
  | sugg (word : String) (suggestions : List String)
deriving DecidableEq

/-- The word of an entry (the bare word, or the dict's single key). -/
def Entry.word : Entry → String
  | .bare w => w
  | .sugg w _ => w

/-- The `Pytypos` object's attributes.  `marker` holds `match_identifier`
(the stored `re_match` is always `marker ++ "(.+)\n"`); `typoDetails` is the
insertion-ordered dict `typo_details` as an association list. -/
structure Session where
  target : String
  marker : String
  fileExtension : String
  recursive : Bool
  dict : Dict
  suggestions : Bool
  excludeFiles : List String
  excludeWords : List String
  typoList : List String
  typoDetails : List (String × List Entry)

/-! ## Construction (`Pytypos.__init__`, lines 45-74) -/

/-- `p.replace(os.path.sep, '/')`: the identity on the modelled POSIX host,
where `os.path.sep` is already `'/'`. -/
def normSep (p : String) : String := p

/-- Python `str.splitlines` (newline-only model): split on `'\n'` and drop
the trailing empty segment, so `"a\nb\n"` and `"a\nb"` both give
`["a", "b"]` and `""` gives `[]`. -/
def splitlines (s : String) : List String :=
  let parts := splitNl s.data
  (if parts.getLast? = some [] then parts.dropLast else parts).map String.mk

/-- Python `str.strip()` with no argument: trim whitespace from both ends. -/
def stripWS (s : String) : String :=
  String.mk ((s.data.dropWhile Char.isWhitespace).reverse.dropWhile Char.isWhitespace).reverse

/-- `Pytypos.__init__`.  The dictionary handle is passed in already acquired
(the enchant service is a black box; an unavailable dictionary id fails
before this point).  The `exclude_word_file` branch follows Python
truthiness: an empty-string path is falsy, so neither the merge nor the
`FileNotFoundError` branch runs for it. -/
def pytyposInit (fs : FS) (dict : Dict) (target : String) (matchIdentifier : String)
    (fileExtension : String) (recursive : Bool) (suggestions : Bool)
    (excludeFileList : Option (List String)) (excludeWordList : Option (List String))
    (excludeWordFile : Option String) : Except Err Session :=
  let excludeFiles := (excludeFileList.getD []).map normSep
  let excludeWords := excludeWordList.getD []
  let base : Session :=
    { target := normSep target, marker := matchIdentifier, fileExtension := fileExtension,
      recursive := recursive, dict := dict, suggestions := suggestions,
      excludeFiles := excludeFiles, excludeWords := excludeWords,
      typoList := [], typoDetails := [] }
  match excludeWordFile with
  | none => .ok base
  | some p =>
    if p = "" then .ok base
    else if fs.isFile p then
      let words := splitlines (fs.read p)
      let merged :=
        if words.isEmpty then excludeWords
        else excludeWords ++ (words.filter (fun w => w ≠ "")).map stripWS
      .ok { base with excludeWords := merged }
    else .error .fileNotFound

/-! ## File discovery (`Pytypos._find_files`, lines 134-142) -/

def findFiles (fs : FS) (target : String) (recursive : Bool) (ext : String) :
    Except Err (List String) :=
  if fs.isFile target then .ok [target]
  else if fs.isDir target then .ok (fs.globFn target recursive ext)
  else .error .fileNotFound

/-! ## Session-level dictionary operations (lines 77-121) -/

/-- `Pytypos.add_to_exclusions` (lines 96-107): despite its name, it calls
`self.dictionary.remove(word)` for each word - it mutates the dictionary
handle, not `exclude_words`. -/
def addToExclusions (s : Session) (wordList : List String) : Session :=
  { s with dict := wordList.foldl (fun d w => d.remove w) s.dict }

/-! ## The typo ledger (`_get_typos_list`, lines 145-154, and `find_typos`,
lines 157-177) -/

/-- All words (or single dict keys) recorded across `typo_details`, in
insertion order - the flattening both branches of `_get_typos_list`
perform (`list(word_dict.keys())` has exactly one element per entry). -/
def allWords (td : List (String × List Entry)) : List String :=
  td.flatMap (fun p => p.2.map Entry.word)

/-- `Pytypos._get_typos_list`: flatten, `set`-deduplicate, and sort with
`key=str.casefold`. -/
def getTyposList (s : Session) : List String :=
  if s.typoDetails.isEmpty then []
  else sortCF (dedupF (allWords s.typoDetails))

/-- `typo_details[file].append(entry)` / `typo_details[file] = [entry]`:
append to an existing key's list, else insert the new key at the end
(CPython dicts preserve insertion order). -/
def appendEntry (td : List (String × List Entry)) (file : String) (e : Entry) :
    List (String × List Entry) :=
  if (td.map Prod.fst).contains file then
    td.map (fun p => if p.1 = file then (p.1, p.2 ++ [e]) else p)
  else td ++ [(file, [e])]

/-- The entry recorded for an unknown word (line 169/171). -/
def mkEntry (d : Dict) (suggestions : Bool) (w : String) : Entry :=
  if suggestions then .sugg w (d.suggest w) else .bare w

/-- The scan loop of `find_typos` (lines 163-171), building the fresh local
`typo_details`.  It reads only the configuration arguments given here -
in particular it never reads the previous ledger. -/
def scanDetails (fs : FS) (marker : String) (d : Dict) (suggestions : Bool)
    (excludeFiles excludeWords : List String) (files : List String) :
    List (String × List Entry) :=
  files.foldl (fun td file =>
    if excludeFiles.contains file then td
    else
      (matchWords marker (fs.read file)).foldl (fun td word =>
        if word ≠ "" && !excludeWords.contains word && !d.check word then
          appendEntry td file (mkEntry d suggestions word)
        else td) td) []

/-- Install a freshly scanned `typo_details` and recompute `typo_list`
(lines 173-174: `typo_list` is assigned after `typo_details`). -/
def setLedger (s : Session) (td : List (String × List Entry)) : Session :=
  let s' := { s with typoDetails := td }
  { s' with typoList := getTyposList s' }

/-- `Pytypos.find_typos` (lines 157-177): discover files, scan, and - only
if the fresh scan recorded anything - replace the ledger; otherwise the
object is left untouched ("No typos were found."). -/
def findTypos (fs : FS) (s : Session) : Except Err Session :=
  match findFiles fs s.target s.recursive s.fileExtension with
  | .error e => .error e
  | .ok files =>
    let td := scanDetails fs s.marker s.dict s.suggestions s.excludeFiles s.excludeWords files
    if td.isEmpty then .ok s else .ok (setLedger s td)

/-! ## The fixer (`Pytypos.fix_typos`, lines 180-201) -/

/-- Does the first list occur at the head of the second? -/
def leadsWith : List Char → List Char → Bool
  | [], _ => true
  | _ :: _, [] => false
  | a :: as, b :: bs => a == b && leadsWith as bs

/-- Python `content.replace(old, new)`: replace every non-overlapping
occurrence of `old`, scanning left to right.  `fuel = s.length` suffices
since every step consumes at least one character.  (`old` is never empty for
this code: it is always of the form `" typo "`.) -/
def replaceFuel (old new : List Char) : Nat → List Char → List Char
  | 0, s => s
  | _ + 1, [] => []
  | fuel + 1, c :: rest =>
    if !old.isEmpty && leadsWith old (c :: rest) then
      new ++ replaceFuel old new fuel (rest.drop (old.length - 1))
    else c :: replaceFuel old new fuel rest

def pyReplace (s old new : String) : String :=
  String.mk (replaceFuel old.data new.data s.data.length s.data)

/-- The inner loop of `fix_typos` (lines 196-198) on one file's content:
for each recorded entry, `content.replace(f' {typo} ', f' {suggestions[0]} ')`.
A bare entry makes `entry.items()` raise `AttributeError`; an empty
suggestion list makes `suggestions[0]` raise `IndexError`; either exception
aborts the loop. -/
def fixContent : List Entry → String → Except Err String
  | [], c => .ok c
  | e :: rest, c =>
    match e with
    | .bare _ => .error .attributeError
    | .sugg _ [] => .error .indexError
    | .sugg typo (top :: _) =>
      fixContent rest (pyReplace c (" " ++ typo ++ " ") (" " ++ top ++ " "))

/-- The per-file loop of `fix_typos` (lines 192-200): open each recorded file
(read-and-write; opening a missing path raises `FileNotFoundError`), read it,
substitute, write back and truncate.  The first component lists the files
opened, in order, before any failure. -/
def fixGo : List (String × List Entry) → FS → List String × Except Err FS
  | [], fs => ([], .ok fs)
  | (f, es) :: rest, fs =>
    if fs.isFile f then
      match fixContent es (fs.read f) with
      | .ok c =>
        let r := fixGo rest (fs.write f c)
        (f :: r.1, r.2)
      | .error e => ([f], .error e)
    else ([], .error .fileNotFound)

/-- `Pytypos.fix_typos`: raise `SuggestionsNotFound` first (line 186-187,
before touching any file); an empty ledger is a logged no-op; otherwise
rewrite each recorded file. -/
def fixTypos (s : Session) (fs : FS) : List String × Except Err FS :=
  if !s.suggestions then ([], .error .suggestionsNotFound)
  else if s.typoDetails.isEmpty then ([], .ok fs)
  else fixGo s.typoDetails fs

/-! ## Auxiliary definitions for stating properties -/

/-- Project the session out of a `find_typos` result (total helper for
closed statements; the default is returned only for the error case). -/
def okOr (e : Except Err Session) (d : Session) : Session :=
  match e with
  | .ok s => s
  | .error _ => d

/-- Deduplication under case-fold equality (keep the first of each
case-fold class) - the specification's notion of deduplication for
`typo_list`, written to be compared with the code's exact-equality `dedupF`. -/
def casefoldDedupAcc (seen : List (List Char)) : List String → List String
  | [] => []
  | x :: xs => if seen.contains (casefold x) then casefoldDedupAcc seen xs
               else x :: casefoldDedupAcc (casefold x :: seen) xs

def casefoldDedup (l : List String) : List String := casefoldDedupAcc [] l

/-- The ledger invariant the code actually maintains: `typo_list` is the
case-insensitively sorted, exact-equality-deduplicated union of all recorded
words across `typo_details`. -/
def LedgerInv (s : Session) : Prop :=
  s.typoList = sortCF (dedupF (allWords s.typoDetails))

/-- Every entry is a suggestion mapping with a nonempty suggestion list. -/
def FixableEntries (es : List Entry) : Prop :=
  ∀ e ∈ es, ∃ w top rest, e = Entry.sugg w (top :: rest)

/-! ## Concrete fixtures for witnesses and counterexamples -/

/-- An empty dictionary: every word is unknown. -/
def dictNone : Dict := { known := [], removed := [], suggestFn := fun _ => [] }

/-- A dictionary knowing only "hello". -/
def dictHello : Dict := { known := ["hello"], removed := [], suggestFn := fun _ => [] }

/-- A session scanning single file "f" with an empty marker, no suggestions,
no exclusions, over dictionary `d`. -/
def mkSimpleSession (d : Dict) : Session :=
  { target := "f", marker := "", fileExtension := "py", recursive := false,
    dict := d, suggestions := false, excludeFiles := [], excludeWords := [],
    typoList := [], typoDetails := [] }

/-- A one-file filesystem with content `c` at path `"f"`. -/
def mkFS (c : String) : FS :=
  { files := [("f", c)], dirs := [], globFn := fun _ _ _ => [] }

end Pytypos

namespace Pytypos

example : matchWords "#" "x # hello\n" = ["hello"] := by decide
example : matchWords "" "cdoe" = [] := by decide
example : matchWords "." "ab cdoe\n" = ["b", "cdoe"] := by decide
example : matchWords "" "Xyzzy xyzzy\n" = ["Xyzzy", "xyzzy"] := by decide
example : pyReplace "a cdoe b" " cdoe " " code " = "a code b" := by decide
example : pyReplace "a w w b" " w " " x " = "a x w b" := by decide
example : splitlines "a\nb\n" = ["a", "b"] := by decide
example : splitlines "a\n\n" = ["a", ""] := by decide
example : splitlines "" = [] := by decide
example : sortCF ["xyzzy", "Xyzzy", "Apple"] = ["Apple", "xyzzy", "Xyzzy"] := by decide

/-! ## C5: `fix_typos` without suggestions -/

/-- C5: if the session was constructed with suggestions disabled, every call
to `fix_typos` raises `SuggestionsNotFound` before any file is opened - the
list of opened files is empty and no filesystem is produced - for every
ledger state and every filesystem. -/
theorem fix_typos_requires_suggestions (s : Session) (fs : FS)
    (h : s.suggestions = false) :
    fixTypos s fs = ([], .error .suggestionsNotFound) := by
  simp [fixTypos, h]

/-- Witness for C5 at a concrete suggestions-disabled session. -/
theorem fix_typos_requires_suggestions_witness :
    (mkSimpleSession dictNone).suggestions = false ∧
      fixTypos (mkSimpleSession dictNone) (mkFS "a cdoe b") =
        ([], .error .suggestionsNotFound) :=
  ⟨rfl, fix_typos_requires_suggestions (mkSimpleSession dictNone) (mkFS "a cdoe b") rfl⟩

/-! ## C8: file discovery -/

/-- C8: if the target is an existing file, discovery returns exactly that one
path, independently of the `recursive` and `file_extension` settings; if the
target is neither an existing file nor an existing directory, discovery
raises the Not-Found error. -/
theorem find_files_spec (fs : FS) (target : String) (r r' : Bool) (e e' : String) :
    (fs.isFile target = true →
      findFiles fs target r e = .ok [target] ∧
        findFiles fs target r e = findFiles fs target r' e') ∧
    (fs.isFile target = false → fs.isDir target = false →
      findFiles fs target r e = .error .fileNotFound) := by
  constructor
  · intro h
    simp [findFiles, h]
  · intro h h'
    simp [findFiles, h, h']

/-- Witness for C8: a one-file filesystem, in the existing-file case and the
missing-target case. -/
theorem find_files_spec_witness :
    ((mkFS "x").isFile "f" = true ∧
      findFiles (mkFS "x") "f" true "rst" = .ok ["f"] ∧
      findFiles (mkFS "x") "f" true "rst" = findFiles (mkFS "x") "f" false "py") ∧
    ((mkFS "x").isFile "g" = false ∧ (mkFS "x").isDir "g" = false ∧
      findFiles (mkFS "x") "g" true "rst" = .error .fileNotFound) := by
  refine ⟨⟨by decide, (find_files_spec (mkFS "x") "f" true false "rst" "py").1 (by decide)⟩,
    ⟨by decide, by decide, (find_files_spec (mkFS "x") "g" true false "rst" "py").2
      (by decide) (by decide)⟩⟩

/-! ## C10: the marker is interpreted with regex semantics -/

/-- C10: the marker is interpolated unescaped into the pattern and read with
regular-expression semantics, not as a literal substring: with marker `"."`
(a regex metacharacter), extraction on a file whose content nowhere contains
a literal `'.'` still matches and produces words. -/
theorem marker_regex_semantics :
    matchWords "." "ab cdoe\n" = ["b", "cdoe"] ∧
      "ab cdoe\n".data.contains '.' = false := by
  decide

/-! ## C4: extraction with an empty marker -/

/-- Counterexample for C4 as stated: the content `"cdoe"` (a final line not
terminated by a newline) contains the whitespace-delimited token `"cdoe"`,
which strips to itself, nonempty and entirely alphabetic - yet extraction
with the empty marker produces nothing, because the pattern `(.+)\n`
requires a trailing newline. -/
theorem empty_marker_final_line_counterexample :
    matchWords "" "cdoe" = [] ∧
      stripPunct "cdoe".data = "cdoe".data ∧ isAlphaTok "cdoe".data = true := by
  decide

theorem dropWhile_head_not {p : Char → Bool} :
    ∀ (l : List Char) (d : Char) (rest : List Char),
      l.dropWhile p = d :: rest → p d = false
  | [], _, _, h => by simp [List.dropWhile] at h
  | c :: cs, d, rest, h => by
    by_cases hc : p c
    · rw [List.dropWhile_cons_of_pos hc] at h
      exact dropWhile_head_not cs d rest h
    · rw [List.dropWhile_cons_of_neg hc] at h
      obtain ⟨rfl, -⟩ : c = d ∧ cs = rest := by simpa using h
      simpa using hc

theorem splitNl_ne_nil (s : List Char) : splitNl s ≠ [] := by
  cases s with
  | nil => simp [splitNl]
  | cons c cs =>
    simp only [splitNl]
    split
    · simp
    · split <;> simp

theorem splitNl_no_newline (s : List Char) (h : ∀ c ∈ s, c ≠ '\n') :
    splitNl s = [s] := by
  induction s with
  | nil => rfl
  | cons c cs ih =>
    have hc : c ≠ '\n' := h c (by simp)
    have ih' := ih (fun d hd => h d (List.mem_cons_of_mem _ hd))
    simp [splitNl, hc, ih']

theorem splitNl_newline_split (s rest : List Char)
    (h : s.dropWhile (fun x => x != '\n') = '\n' :: rest) :
    splitNl s = s.takeWhile (fun x => x != '\n') :: splitNl rest := by
  induction s with
  | nil => simp [List.dropWhile] at h
  | cons c cs ih =>
    by_cases hc : c = '\n'
    · subst hc
      simp only [List.dropWhile, bne_self_eq_false] at h
      simp only [List.cons.injEq, true_and] at h
      subst h
      simp [splitNl, List.takeWhile]
    · have hb : (c != '\n') = true := by simpa using hc
      have h' : cs.dropWhile (fun x => x != '\n') = '\n' :: rest := by
        simpa [List.dropWhile_cons, hb] using h
      have ih' := ih h'
      have htk : (c :: cs).takeWhile (fun x => x != '\n') =
          c :: cs.takeWhile (fun x => x != '\n') := by
        simp [List.takeWhile_cons, hb]
      rw [htk]
      simp [splitNl, hc, ih']

/-- With the empty marker, `re.findall('(.+)\n', s)` returns exactly the
nonempty newline-terminated lines of `s` - every segment of `splitNl`
except the final unterminated one, empty segments dropped. -/
theorem findallAux_empty_marker (fuel : Nat) (s : List Char) (h : s.length ≤ fuel) :
    findallAux [] fuel s = ((splitNl s).dropLast).filter (fun l => !l.isEmpty) := by
  induction fuel generalizing s with
  | zero =>
    cases s with
    | nil => simp [findallAux, splitNl]
    | cons c cs => simp at h
  | succ f ih =>
    cases s with
    | nil => simp [findallAux, splitNl]
    | cons c cs =>
      by_cases hc : c = '\n'
      · subst hc
        have hstep : findallAux [] (f + 1) ('\n' :: cs) = findallAux [] f cs := by
          simp [findallAux, markerMatch, captureLine, List.takeWhile, List.dropWhile]
        rw [hstep, ih cs (by simpa using Nat.le_of_succ_le_succ h)]
        have hne := splitNl_ne_nil cs
        cases hsp : splitNl cs with
        | nil => exact absurd hsp hne
        | cons l ls => simp [splitNl, hsp, List.dropLast]
      · have hb : (c != '\n') = true := by simpa using hc
        cases hdrop : (c :: cs).dropWhile (fun x => x != '\n') with
        | nil =>
          have hall : ∀ x ∈ c :: cs, (x != '\n') = true :=
            List.dropWhile_eq_nil_iff.mp hdrop
          have hall' : ∀ x ∈ c :: cs, x ≠ '\n' := fun x hx => by simpa using hall x hx
          have hallcs : ∀ x ∈ cs, x ≠ '\n' := fun x hx => hall' x (List.mem_cons_of_mem _ hx)
          have hstep : findallAux [] (f + 1) (c :: cs) = findallAux [] f cs := by
            simp [findallAux, markerMatch, captureLine, hdrop]
          rw [hstep, ih cs (by simpa using Nat.le_of_succ_le_succ h),
            splitNl_no_newline cs hallcs, splitNl_no_newline (c :: cs) hall']
          simp
        | cons d rest =>
          have hd : d = '\n' := by
            have := dropWhile_head_not (p := fun x => x != '\n') (c :: cs) d rest hdrop
            simpa using this
          subst hd
          have hcap : (c :: cs).takeWhile (fun x => x != '\n') =
              c :: cs.takeWhile (fun x => x != '\n') := by
            simp [List.takeWhile_cons, hb]
          have hstep : findallAux [] (f + 1) (c :: cs) =
              ((c :: cs).takeWhile (fun x => x != '\n')) :: findallAux [] f rest := by
            simp [findallAux, markerMatch, captureLine, hdrop, hcap]
          have hlen := congrArg List.length
            (List.takeWhile_append_dropWhile (p := fun x => x != '\n') (l := c :: cs))
          rw [hcap, hdrop] at hlen
          simp only [List.length_append, List.length_cons] at hlen
          have hrest : rest.length ≤ f := by simp at h; omega
          rw [hstep, ih rest hrest, splitNl_newline_split (c :: cs) rest hdrop]
          have hne := splitNl_ne_nil rest
          cases hr : splitNl rest with
          | nil => exact absurd hr hne
          | cons l ls => simp [hcap, List.dropLast]

/-- C4 amended: when `match_identifier` is the empty string, the matched
regions are exactly the nonempty newline-terminated lines of the file
content; every whitespace-delimited token of those lines that strips to a
nonempty, entirely alphabetic word is produced (deduplicated) - but a final
line not terminated by a newline contributes nothing, because the compiled
pattern is `(.+)\n`. -/
theorem empty_marker_scans_terminated_lines (content : String) :
    matchWords "" content =
      dedupF ((((splitNl content.data).dropLast).filter (fun l => !l.isEmpty)).flatMap
        (fun m => (splitWS m).filterMap
          (fun w => if isAlphaTok (stripPunct w) then some (String.mk (stripPunct w))
                    else none))) := by
  unfold matchWords reFindall
  rw [show parseMarker "" = [] from rfl,
    findallAux_empty_marker content.data.length content.data le_rfl]

/-! ## C7: the exclusion word file at construction -/

/-- C7: if `exclude_word_file` is provided (a nonempty path, per Python
truthiness) and does not exist as a file, construction raises the Not-Found
error and yields no session; if it exists, construction succeeds and the
resulting `exclude_words` is the set union of the explicit word list and the
trimmed nonempty lines of the file, with an empty ledger. -/
theorem init_exclude_word_file_spec (fs : FS) (dict : Dict) (target m fe : String)
    (r sug : Bool) (efl ewl : Option (List String)) (p : String) (hp : p ≠ "") :
    (fs.isFile p = false →
      pytyposInit fs dict target m fe r sug efl ewl (some p) = .error .fileNotFound) ∧
    (fs.isFile p = true →
      (pytyposInit fs dict target m fe r sug efl ewl (some p)).isOk = true) ∧
    (fs.isFile p = true →
      ∀ s, pytyposInit fs dict target m fe r sug efl ewl (some p) = .ok s →
        (∀ w, w ∈ s.excludeWords ↔
          w ∈ ewl.getD [] ∨
            ∃ l ∈ splitlines (fs.read p), l ≠ "" ∧ stripWS l = w) ∧
        s.typoDetails = [] ∧ s.typoList = []) := by
  refine ⟨fun h => by simp [pytyposInit, hp, h],
    fun h => by simp [pytyposInit, hp, h, Except.isOk, Except.toBool], ?_⟩
  intro h s hs
  simp only [pytyposInit, hp, if_false, h, if_true, Except.ok.injEq] at hs
  subst hs
  refine ⟨?_, rfl, rfl⟩
  intro w
  by_cases hnil : splitlines (fs.read p) = []
  · simp [hnil]
  · simp only [hnil, List.isEmpty_iff, if_false, List.mem_append, List.mem_map,
      List.mem_filter, decide_eq_true_eq]
    tauto

/-- A filesystem with an exclusion word file for the C7 witness. -/
def fsExFile : FS :=
  { files := [("ex.txt", "  foo \nbar\n\n")], dirs := [], globFn := fun _ _ _ => [] }

/-- Witness for C7: the Not-Found branch on a filesystem without the file,
and the merge branch on one with it (line "  foo " trims to "foo", which
lands in `exclude_words`). -/
theorem init_exclude_word_file_spec_witness :
    ((mkFS "x").isFile "ex.txt" = false ∧
      pytyposInit (mkFS "x") dictNone "t" "#" "py" false false none none (some "ex.txt") =
        .error .fileNotFound) ∧
    (fsExFile.isFile "ex.txt" = true ∧
      "foo" ∈ (okOr
        (pytyposInit fsExFile dictNone "t" "#" "py" false false none (some ["RST"])
          (some "ex.txt"))
        (mkSimpleSession dictNone)).excludeWords) := by
  have h1 := (init_exclude_word_file_spec (mkFS "x") dictNone "t" "#" "py" false false
    none none "ex.txt" (by decide)).1 (by decide)
  have h2 := (init_exclude_word_file_spec fsExFile dictNone "t" "#" "py" false false
    none (some ["RST"]) "ex.txt" (by decide)).2.2 (by decide)
    (okOr (pytyposInit fsExFile dictNone "t" "#" "py" false false none (some ["RST"])
      (some "ex.txt")) (mkSimpleSession dictNone)) rfl
  refine ⟨⟨by decide, h1⟩, by decide, ?_⟩
  exact (h2.1 "foo").mpr (Or.inr ⟨"  foo ", by decide, by decide, by decide⟩)

/-! ## C1: the `typo_list` invariant -/

theorem getTyposList_eq (s : Session) :
    getTyposList s = sortCF (dedupF (allWords s.typoDetails)) := by
  by_cases h : s.typoDetails.isEmpty
  · have h0 : s.typoDetails = [] := List.isEmpty_iff.mp h
    simp [getTyposList, h, h0, allWords, dedupF, dedupAcc, sortCF]
  · simp [getTyposList, h]

/-- C1 amended: after construction and after every `find_typos` call (hence
after any sequence of scans, with the session-level dictionary operations in
between, which leave the ledger untouched), `typo_list` equals the union of
all recorded words across `typo_details`, deduplicated under EXACT string
equality (case-fold-equal variants are kept as distinct entries) and sorted
case-insensitively. -/
theorem typo_list_invariant_exact_dedup :
    (∀ fs dict target m fe r sug efl ewl ewf s,
      pytyposInit fs dict target m fe r sug efl ewl ewf = .ok s → LedgerInv s) ∧
    (∀ fs s s', LedgerInv s → findTypos fs s = .ok s' → LedgerInv s') ∧
    (∀ s ws, LedgerInv s → LedgerInv (addToExclusions s ws)) := by
  refine ⟨?_, ?_, ?_⟩
  · intro fs d target m fe r sug efl ewl ewf s hs
    have hld : s.typoList = [] ∧ s.typoDetails = [] := by
      cases ewf with
      | none =>
        simp only [pytyposInit, Except.ok.injEq] at hs
        subst hs; exact ⟨rfl, rfl⟩
      | some p =>
        by_cases hp : p = ""
        · simp only [pytyposInit, hp, if_true, Except.ok.injEq] at hs
          subst hs; exact ⟨rfl, rfl⟩
        · by_cases hf : fs.isFile p = true
          · simp only [pytyposInit, hp, if_false, hf, if_true, Except.ok.injEq] at hs
            subst hs; exact ⟨rfl, rfl⟩
          · simp [pytyposInit, hp, hf] at hs
    unfold LedgerInv
    rw [hld.1, hld.2]
    rfl
  · intro fs s s' hinv hr
    unfold findTypos at hr
    cases hff : findFiles fs s.target s.recursive s.fileExtension with
    | error e => rw [hff] at hr; simp at hr
    | ok files =>
      rw [hff] at hr
      simp only at hr
      by_cases htd : (scanDetails fs s.marker s.dict s.suggestions s.excludeFiles
          s.excludeWords files).isEmpty
      · rw [if_pos htd] at hr
        obtain rfl : s = s' := by simpa using hr
        exact hinv
      · rw [if_neg htd] at hr
        obtain rfl : setLedger s (scanDetails fs s.marker s.dict s.suggestions
            s.excludeFiles s.excludeWords files) = s' := by simpa using hr
        exact getTyposList_eq _
  · intro s ws hinv
    exact hinv

/-- Witness for C1: the invariant holds for a fresh session and is carried
through a concrete scan. -/
theorem typo_list_invariant_witness :
    LedgerInv (mkSimpleSession dictNone) ∧
      LedgerInv (okOr (findTypos (mkFS "Xyzzy xyzzy\n") (mkSimpleSession dictNone))
        (mkSimpleSession dictNone)) :=
  ⟨rfl, typo_list_invariant_exact_dedup.2.1 (mkFS "Xyzzy xyzzy\n")
    (mkSimpleSession dictNone)
    (okOr (findTypos (mkFS "Xyzzy xyzzy\n") (mkSimpleSession dictNone))
      (mkSimpleSession dictNone)) rfl rfl⟩

/-- Counterexample for C1 as stated: scanning a file containing both
"Xyzzy" and "xyzzy" (neither in the dictionary) yields a `typo_list` with
BOTH case-fold-equal words - deduplication is under exact equality, not
case-fold equality as the claim requires. -/
theorem typo_list_casefold_dedup_counterexample :
    (okOr (findTypos (mkFS "Xyzzy xyzzy\n") (mkSimpleSession dictNone))
        (mkSimpleSession dictNone)).typoList = ["Xyzzy", "xyzzy"] ∧
    casefold "Xyzzy" = casefold "xyzzy" ∧
    (okOr (findTypos (mkFS "Xyzzy xyzzy\n") (mkSimpleSession dictNone))
        (mkSimpleSession dictNone)).typoList ≠
      sortCF (casefoldDedup (allWords
        (okOr (findTypos (mkFS "Xyzzy xyzzy\n") (mkSimpleSession dictNone))
          (mkSimpleSession dictNone)).typoDetails)) := by
  decide

/-! ## C2: exclusion semantics -/

theorem mkEntry_word (d : Dict) (sug : Bool) (w : String) : (mkEntry d sug w).word = w := by
  unfold mkEntry
  split <;> rfl

theorem allWords_appendEntry (td : List (String × List Entry)) (f : String) (e : Entry)
    (x : String) (hx : x ∈ allWords (appendEntry td f e)) :
    x ∈ allWords td ∨ x = e.word := by
  unfold appendEntry at hx
  by_cases hf : (td.map Prod.fst).contains f = true
  · rw [if_pos hf] at hx
    unfold allWords at hx ⊢
    simp only [List.mem_flatMap] at hx ⊢
    obtain ⟨p, hp, hxp⟩ := hx
    simp only [List.mem_map] at hp
    obtain ⟨q, hq, rfl⟩ := hp
    by_cases hq1 : q.1 = f
    · rw [if_pos hq1] at hxp
      simp only [List.map_append] at hxp
      rcases List.mem_append.mp hxp with h | h
      · exact Or.inl ⟨q, hq, h⟩
      · simp only [List.map_cons, List.map_nil, List.mem_singleton] at h
        exact Or.inr h
    · rw [if_neg hq1] at hxp
      exact Or.inl ⟨q, hq, hxp⟩
  · rw [if_neg hf] at hx
    unfold allWords at hx ⊢
    rw [List.flatMap_append] at hx
    rcases List.mem_append.mp hx with h | h
    · exact Or.inl h
    · simp only [List.flatMap_cons, List.flatMap_nil, List.map_cons, List.map_nil,
        List.append_nil, List.mem_singleton] at h
      exact Or.inr h

theorem scan_inner_excludes (d : Dict) (sug : Bool) (ews : List String) (f : String)
    (words : List String) :
    ∀ td, (∀ x ∈ allWords td, ews.contains x = false) →
      ∀ x ∈ allWords (words.foldl (fun td word =>
          if word ≠ "" && !ews.contains word && !d.check word then
            appendEntry td f (mkEntry d sug word)
          else td) td),
        ews.contains x = false := by
  induction words with
  | nil => intro td hinv x hx; exact hinv x hx
  | cons w ws ih =>
    intro td hinv x hx
    rw [List.foldl_cons] at hx
    refine ih _ ?_ x hx
    intro y hy
    by_cases hg : (decide (w ≠ "") && !ews.contains w && !d.check w) = true
    · rw [if_pos hg] at hy
      rcases allWords_appendEntry td f (mkEntry d sug w) y hy with h | h
      · exact hinv y h
      · rw [mkEntry_word] at h
        subst h
        have := (Bool.and_eq_true_iff.mp (Bool.and_eq_true_iff.mp hg).1).2
        simpa using this
    · rw [if_neg hg] at hy
      exact hinv y hy

theorem scan_details_excludes (fs : FS) (m : String) (d : Dict) (sug : Bool)
    (efs ews : List String) (files : List String) :
    ∀ x ∈ allWords (scanDetails fs m d sug efs ews files), ews.contains x = false := by
  unfold scanDetails
  have h0 : ∀ x ∈ allWords ([] : List (String × List Entry)), ews.contains x = false := by
    intro x hx
    simp [allWords] at hx
  generalize ([] : List (String × List Entry)) = td0 at h0 ⊢
  induction files generalizing td0 with
  | nil => exact h0
  | cons file rest ih =>
    rw [List.foldl_cons]
    refine ih _ ?_
    by_cases hex : efs.contains file = true
    · rw [if_pos hex]
      exact h0
    · rw [if_neg hex]
      exact scan_inner_excludes d sug ews file (matchWords m (fs.read file)) td0 h0

/-- C2 amended: a word in `exclude_words` (populated at construction from
`exclude_word_list` and/or `exclude_word_file`) is never recorded by
`find_typos`, regardless of dictionary membership.  `add_to_exclusions`,
however, does NOT extend `exclude_words`: it removes its words from the
dictionary handle, which makes them REPORTED as typos (see the
counterexample). -/
theorem exclude_words_never_reported (fs : FS) (s s' : Session) (w : String)
    (hw : s.excludeWords.contains w = true)
    (hold : w ∉ allWords s.typoDetails)
    (hr : findTypos fs s = .ok s') :
    w ∉ allWords s'.typoDetails := by
  unfold findTypos at hr
  cases hff : findFiles fs s.target s.recursive s.fileExtension with
  | error e => rw [hff] at hr; simp at hr
  | ok files =>
    rw [hff] at hr
    simp only at hr
    by_cases htd : (scanDetails fs s.marker s.dict s.suggestions s.excludeFiles
        s.excludeWords files).isEmpty
    · rw [if_pos htd] at hr
      obtain rfl : s = s' := by simpa using hr
      exact hold
    · rw [if_neg htd] at hr
      obtain rfl : setLedger s (scanDetails fs s.marker s.dict s.suggestions
          s.excludeFiles s.excludeWords files) = s' := by simpa using hr
      intro hmem
      have := scan_details_excludes fs s.marker s.dict s.suggestions s.excludeFiles
        s.excludeWords files w hmem
      rw [hw] at this
      exact Bool.true_eq_false.mp this

/-- A session whose `exclude_words` is `["RST"]` (the spec's example). -/
def sRst : Session :=
  { mkSimpleSession dictNone with excludeWords := ["RST"] }

/-- Witness for C2: the word "RST", unknown to the dictionary but excluded,
is not recorded by a scan of a file containing it. -/
theorem exclude_words_never_reported_witness :
    sRst.excludeWords.contains "RST" = true ∧
    "RST" ∉ allWords sRst.typoDetails ∧
    "RST" ∉ allWords (okOr (findTypos (mkFS "RST\n") sRst) sRst).typoDetails :=
  ⟨by decide, by decide,
    exclude_words_never_reported (mkFS "RST\n") sRst
      (okOr (findTypos (mkFS "RST\n") sRst) sRst) "RST" (by decide) (by decide) rfl⟩

/-- Counterexample for C2 as stated: the word "hello" is in the dictionary,
so a scan records nothing; after `add_to_exclusions(["hello"])` - which
calls `dictionary.remove("hello")` - the same scan DOES record "hello" as a
typo, the opposite of what the claim asserts for words passed to
`add_to_exclusions`. -/
theorem add_to_exclusions_counterexample :
    (okOr (findTypos (mkFS "hello\n") (mkSimpleSession dictHello))
        (mkSimpleSession dictHello)).typoDetails = [] ∧
    "hello" ∈ allWords (okOr
      (findTypos (mkFS "hello\n") (addToExclusions (mkSimpleSession dictHello) ["hello"]))
      (mkSimpleSession dictHello)).typoDetails := by
  decide

/-! ## C3: ledger replacement across scans -/

/-- C3 amended: a `find_typos` call whose fresh scan records at least one
typo replaces the whole ledger with that scan's results - computed by
`scanDetails` from the configuration only, independent of the previous
ledger - but a call whose scan records NO typos leaves the previous ledger
in place (it does not clear it). -/
theorem find_typos_replaces_or_retains (fs : FS) (s : Session) (files : List String)
    (hf : findFiles fs s.target s.recursive s.fileExtension = .ok files) :
    findTypos fs s =
      .ok (if (scanDetails fs s.marker s.dict s.suggestions s.excludeFiles
              s.excludeWords files).isEmpty
           then s
           else setLedger s (scanDetails fs s.marker s.dict s.suggestions
              s.excludeFiles s.excludeWords files)) := by
  simp only [findTypos, hf]
  by_cases htd : (scanDetails fs s.marker s.dict s.suggestions s.excludeFiles
      s.excludeWords files).isEmpty = true
  · rw [if_pos htd, if_pos htd]
  · rw [if_neg htd, if_neg htd]

/-- Witness for C3 at a concrete scan. -/
theorem find_typos_replaces_or_retains_witness :
    findFiles (mkFS "qzx\n") "f" false "py" = .ok ["f"] ∧
    findTypos (mkFS "qzx\n") (mkSimpleSession dictHello) =
      .ok (if (scanDetails (mkFS "qzx\n") "" dictHello false [] [] ["f"]).isEmpty
           then mkSimpleSession dictHello
           else setLedger (mkSimpleSession dictHello)
             (scanDetails (mkFS "qzx\n") "" dictHello false [] [] ["f"])) :=
  ⟨rfl, find_typos_replaces_or_retains (mkFS "qzx\n") (mkSimpleSession dictHello)
    ["f"] rfl⟩

/-- Counterexample for C3 as stated: a first scan of "qzx" (unknown) fills
the ledger; a second scan over content "hello" (all words known) records no
typos, yet returns the session UNCHANGED - the ledger still holds the
previous scan's typo, contradicting "after a scan that records no typos,
the ledger does not retain typos from a previous scan". -/
theorem empty_scan_retains_ledger_counterexample :
    (okOr (findTypos (mkFS "qzx\n") (mkSimpleSession dictHello))
        (mkSimpleSession dictHello)).typoDetails = [("f", [Entry.bare "qzx"])] ∧
    findTypos (mkFS "hello\n")
        (okOr (findTypos (mkFS "qzx\n") (mkSimpleSession dictHello))
          (mkSimpleSession dictHello)) =
      .ok (okOr (findTypos (mkFS "qzx\n") (mkSimpleSession dictHello))
        (mkSimpleSession dictHello)) := by
  exact ⟨by decide, rfl⟩

/-! ## Filesystem read/write lemmas -/

theorem lookup_update_self (l : List (String × String)) (f c : String)
    (h : (l.map Prod.fst).contains f = true) :
    List.lookup f (l.map (fun q => if q.1 = f then (q.1, c) else q)) = some c := by
  induction l with
  | nil => simp at h
  | cons q rest ih =>
    obtain ⟨k, v⟩ := q
    simp only [List.map_cons]
    by_cases hq : k = f
    · rw [if_pos hq]
      simp [List.lookup, hq]
    · rw [if_neg hq]
      have h' : (rest.map Prod.fst).contains f = true := by
        simp only [List.map_cons, List.contains_cons] at h
        rcases Bool.or_eq_true_iff.mp h with h1 | h1
        · exact absurd (beq_iff_eq.mp h1).symm hq
        · exact h1
      have hne : (f == k) = false := by
        simpa using fun he => hq he.symm
      simp [List.lookup, hne, ih h']

theorem lookup_update_ne (l : List (String × String)) (f c g : String) (h : g ≠ f) :
    List.lookup g (l.map (fun q => if q.1 = f then (q.1, c) else q)) = List.lookup g l := by
  induction l with
  | nil => simp
  | cons q rest ih =>
    obtain ⟨k, v⟩ := q
    simp only [List.map_cons]
    by_cases hq : k = f
    · rw [if_pos hq]
      have hne : (g == k) = false := by
        simpa using fun he => h (he.trans hq)
      simp [List.lookup, hne, ih]
    · rw [if_neg hq]
      by_cases hg : g = k
      · simp [List.lookup, hg]
      · have hne : (g == k) = false := by simpa using hg
        simp [List.lookup, hne, ih]

theorem FS.isFile_write (fs : FS) (f c p : String) :
    (fs.write f c).isFile p = fs.isFile p := by
  unfold FS.isFile FS.write
  simp only [List.map_map]
  have hcomp : (Prod.fst ∘ fun q : String × String => if q.1 = f then (q.1, c) else q)
      = Prod.fst := by
    funext q
    by_cases hq : q.1 = f <;> simp [hq]
  rw [hcomp]

theorem FS.read_write_self (fs : FS) (f c : String) (h : fs.isFile f = true) :
    (fs.write f c).read f = c := by
  unfold FS.read FS.write
  rw [lookup_update_self fs.files f c h]
  rfl

theorem FS.read_write_ne (fs : FS) (f g c : String) (h : g ≠ f) :
    (fs.write f c).read g = fs.read g := by
  unfold FS.read FS.write
  rw [lookup_update_ne fs.files f c g h]

/-! ## C6: what `fix_typos` writes -/

theorem fixContent_ok_of_fixable (es : List Entry) (hf : FixableEntries es) :
    ∀ c, ∃ c', fixContent es c = .ok c' := by
  induction es with
  | nil => exact fun c => ⟨c, rfl⟩
  | cons e rest ih =>
    intro c
    obtain ⟨w, top, tail, rfl⟩ := hf e (by simp)
    have hf' : FixableEntries rest := fun e' he' => hf e' (List.mem_cons_of_mem _ he')
    obtain ⟨c', hc'⟩ := ih hf' (pyReplace c (" " ++ w ++ " ") (" " ++ top ++ " "))
    exact ⟨c', hc'⟩

theorem fixGo_spec :
    ∀ (td : List (String × List Entry)) (fs : FS),
      (td.map Prod.fst).Nodup →
      (∀ f es, (f, es) ∈ td → fs.isFile f = true ∧ FixableEntries es) →
      ∃ fs', fixGo td fs = (td.map Prod.fst, .ok fs') ∧
        (∀ f es, (f, es) ∈ td → fixContent es (fs.read f) = .ok (fs'.read f)) ∧
        (∀ g, g ∉ td.map Prod.fst → fs'.read g = fs.read g) := by
  intro td
  induction td with
  | nil =>
    intro fs _ _
    exact ⟨fs, rfl, by simp, fun g _ => rfl⟩
  | cons hd rest ih =>
    obtain ⟨f, es⟩ := hd
    intro fs hnd hall
    obtain ⟨hfile, hfix⟩ := hall f es (by simp)
    obtain ⟨c, hc⟩ := fixContent_ok_of_fixable es hfix (fs.read f)
    have hnd' : (rest.map Prod.fst).Nodup := (List.nodup_cons.mp (by simpa using hnd)).2
    have hfnr : f ∉ rest.map Prod.fst := (List.nodup_cons.mp (by simpa using hnd)).1
    have hall' : ∀ g es', (g, es') ∈ rest →
        (fs.write f c).isFile g = true ∧ FixableEntries es' := by
      intro g es' hg
      obtain ⟨h1, h2⟩ := hall g es' (List.mem_cons_of_mem _ hg)
      exact ⟨by rw [FS.isFile_write]; exact h1, h2⟩
    obtain ⟨fs', hgo, hpt, hout⟩ := ih (fs.write f c) hnd' hall'
    refine ⟨fs', ?_, ?_, ?_⟩
    · simp [fixGo, hfile, hc, hgo]
    · intro g es' hg
      rcases List.mem_cons.mp hg with heq | hg'
      · obtain ⟨hgf, hese⟩ : g = f ∧ es' = es := by simpa using heq
        rw [hgf, hese]
        have hrd : fs'.read f = (fs.write f c).read f := hout f hfnr
        rw [hrd, FS.read_write_self fs f c hfile]
        exact hc
      · have hgm : g ∈ rest.map Prod.fst := by
          simpa using List.mem_map_of_mem Prod.fst hg'
        have hgne : g ≠ f := fun h => hfnr (h ▸ hgm)
        have := hpt g es' hg'
        rwa [FS.read_write_ne fs f g c hgne] at this
    · intro g hgnot
      have hg1 : g ≠ f := by
        intro h
        exact hgnot (by simp [h])
      have hg2 : g ∉ rest.map Prod.fst := fun h => hgnot (by simp [h])
      rw [hout g hg2, FS.read_write_ne fs f g c hg1]

/-- C6: with suggestions enabled and a well-formed ledger (distinct file
keys, each recorded file existing, every entry a suggestion mapping with a
nonempty list), `fix_typos` opens exactly the recorded files in order and
rewrites each with the content obtained by folding
`content.replace(" typo ", " top_suggestion ")` over its recorded entries
(`fixContent`); every other file is untouched. -/
theorem fix_typos_rewrites_with_top_suggestion (s : Session) (fs : FS)
    (hs : s.suggestions = true)
    (hnd : (s.typoDetails.map Prod.fst).Nodup)
    (hall : ∀ f es, (f, es) ∈ s.typoDetails → fs.isFile f = true ∧ FixableEntries es) :
    ∃ fs', fixTypos s fs = (s.typoDetails.map Prod.fst, .ok fs') ∧
      (∀ f es, (f, es) ∈ s.typoDetails → fixContent es (fs.read f) = .ok (fs'.read f)) ∧
      (∀ g, g ∉ s.typoDetails.map Prod.fst → fs'.read g = fs.read g) := by
  by_cases hemp : s.typoDetails.isEmpty = true
  · have h0 : s.typoDetails = [] := List.isEmpty_iff.mp hemp
    refine ⟨fs, by simp [fixTypos, hs, hemp, h0], ?_, fun g _ => rfl⟩
    intro f es hmem
    rw [h0] at hmem
    simp at hmem
  · obtain ⟨fs', hgo, hpt, hout⟩ := fixGo_spec s.typoDetails fs hnd hall
    exact ⟨fs', by simp [fixTypos, hs, hemp, hgo], hpt, hout⟩

/-- A suggestions-enabled session whose ledger records "cdoe" in file "f"
with ranked suggestions `["code", "cde"]`. -/
def sFix : Session :=
  { target := "f", marker := "#", fileExtension := "py", recursive := false,
    dict := dictNone, suggestions := true, excludeFiles := [], excludeWords := [],
    typoList := ["cdoe"], typoDetails := [("f", [Entry.sugg "cdoe" ["code", "cde"]])] }

/-- Witness for C6: fixing content `"a cdoe b"` with top suggestion
`"code"` yields `"a code b"` (the spec's example). -/
theorem fix_typos_rewrites_witness :
    sFix.suggestions = true ∧
      (∃ fs', fixTypos sFix (mkFS "a cdoe b") = (["f"], .ok fs') ∧
        fs'.read "f" = "a code b") := by
  have hall : ∀ f es, (f, es) ∈ sFix.typoDetails →
      (mkFS "a cdoe b").isFile f = true ∧ FixableEntries es := by
    intro f es hmem
    obtain ⟨rfl, rfl⟩ : f = "f" ∧ es = [Entry.sugg "cdoe" ["code", "cde"]] := by
      simpa [sFix] using hmem
    refine ⟨by decide, ?_⟩
    intro e he
    simp only [List.mem_singleton] at he
    subst he
    exact ⟨"cdoe", "code", ["cde"], rfl⟩
  obtain ⟨fs', h1, h2, h3⟩ :=
    fix_typos_rewrites_with_top_suggestion sFix (mkFS "a cdoe b") rfl (by decide) hall
  refine ⟨rfl, fs', by simpa [sFix] using h1, ?_⟩
  have hv := h2 "f" [Entry.sugg "cdoe" ["code", "cde"]] (by simp [sFix])
  have hval : fixContent [Entry.sugg "cdoe" ["code", "cde"]]
      ((mkFS "a cdoe b").read "f") = .ok "a code b" := by rfl
  rw [hval] at hv
  injection hv with hv'
  exact hv'.symm

/-! ## C9: unguarded indexing of the suggestion list -/

theorem fixContent_no_index (es : List Entry)
    (hne : ∀ w l, Entry.sugg w l ∈ es → l ≠ []) :
    ∀ c, fixContent es c ≠ .error .indexError := by
  induction es with
  | nil =>
    intro c h
    simp [fixContent] at h
  | cons e rest ih =>
    intro c h
    cases e with
    | bare w => simp [fixContent] at h
    | sugg w l =>
      cases l with
      | nil => exact hne w [] (by simp) rfl
      | cons top tail =>
        have hne' : ∀ w' l', Entry.sugg w' l' ∈ rest → l' ≠ [] :=
          fun w' l' hm => hne w' l' (List.mem_cons_of_mem _ hm)
        exact ih hne' _ h

theorem fixGo_no_index (td : List (String × List Entry))
    (hne : ∀ f es, (f, es) ∈ td → ∀ w l, Entry.sugg w l ∈ es → l ≠ []) :
    ∀ fs, (fixGo td fs).2 ≠ .error .indexError := by
  induction td with
  | nil =>
    intro fs h
    simp [fixGo] at h
  | cons hd rest ih =>
    obtain ⟨f, es⟩ := hd
    intro fs h
    unfold fixGo at h
    by_cases hfile : fs.isFile f = true
    · rw [if_pos hfile] at h
      cases hfc : fixContent es (fs.read f) with
      | ok c =>
        rw [hfc] at h
        exact ih (fun g es' hm => hne g es' (List.mem_cons_of_mem _ hm)) (fs.write f c) h
      | error e =>
        rw [hfc] at h
        simp only at h
        have he : e = Err.indexError := by simpa using h
        rw [he] at hfc
        exact fixContent_no_index es (fun w l hm => hne f es (by simp) w l hm)
          (fs.read f) hfc
    · rw [if_neg hfile] at h
      simp at h

/-- A suggestions-enabled session whose ledger holds an EMPTY suggestion
list for "cdoe" (a state `find_typos` can produce when the dictionary
service returns no suggestions). -/
def sBadFix : Session :=
  { sFix with typoDetails := [("f", [Entry.sugg "cdoe" []])] }

/-- C9: `fix_typos` reads `suggestions[0]` without an emptiness guard.
Under the precondition that every recorded suggestion list is nonempty the
indexing is safe (no `IndexError` can result), and for the concrete ledger
`sBadFix`, holding an empty suggestion list, `fix_typos` fails with
`IndexError` after having opened file "f". -/
theorem fix_typos_indexing_safety :
    (∀ (s : Session) (fs : FS),
      (∀ f es, (f, es) ∈ s.typoDetails → ∀ w l, Entry.sugg w l ∈ es → l ≠ []) →
      (fixTypos s fs).2 ≠ .error .indexError) ∧
    fixTypos sBadFix (mkFS "a cdoe b") = (["f"], .error .indexError) := by
  constructor
  · intro s fs hne h
    unfold fixTypos at h
    by_cases hsug : s.suggestions = true
    · rw [hsug] at h
      simp only [Bool.not_true, Bool.false_eq_true, if_false] at h
      by_cases hemp : s.typoDetails.isEmpty = true
      · rw [if_pos hemp] at h
        simp at h
      · rw [if_neg hemp] at h
        exact fixGo_no_index s.typoDetails hne fs h
    · have hsug' : s.suggestions = false := Bool.eq_false_iff.mpr hsug
      rw [hsug'] at h
      simp at h
  · rfl

/-- Witness for C9's safety half at a concrete well-formed ledger. -/
theorem fix_typos_indexing_safety_witness :
    (∀ f es, (f, es) ∈ sFix.typoDetails → ∀ w l, Entry.sugg w l ∈ es → l ≠ []) ∧
    (fixTypos sFix (mkFS "a cdoe b")).2 ≠ .error .indexError := by
  have hne : ∀ f es, (f, es) ∈ sFix.typoDetails → ∀ w l, Entry.sugg w l ∈ es → l ≠ [] := by
    intro f es hm w l hl
    obtain ⟨rfl, rfl⟩ : f = "f" ∧ es = [Entry.sugg "cdoe" ["code", "cde"]] := by
      simpa [sFix] using hm
    simp only [List.mem_singleton, Entry.sugg.injEq] at hl
    obtain ⟨-, rfl⟩ := hl
    simp
  exact ⟨hne, fix_typos_indexing_safety.1 sFix (mkFS "a cdoe b") hne⟩

end Pytypos
